import Mathlib

/-!
Verification of the genomic interval dataset preparer described by the
`tutorials/preprocess.ipynb` notebook and its design-level specification.
The pipeline scripts themselves (`basenji_data.py` and friends) are not part
of this repository excerpt; following the specification, the components below
are modelled from the spec's own description and verified against the
properties it states.  The notebook's own cells (download guards, samples
table writer) are embedded directly from the source.
-/

namespace Basenji

/-! ## Interval model -/

/-- A half-open genomic span `[start, stop)` on the positions of one
chromosome, given by its two coordinates. -/
abbrev Iv := ℕ × ℕ

/-- Does the half-open interval `iv` contain position `p`? -/
def ivContains (iv : Iv) (p : ℕ) : Bool :=
  decide (iv.1 ≤ p) && decide (p < iv.2)

/-- Is position `p` covered by some interval of the list `l`? -/
def coveredBy (l : List Iv) (p : ℕ) : Bool :=
  l.any (fun iv => ivContains iv p)

/-- Two half-open intervals are disjoint (non-overlapping). -/
def ivDisjoint (a b : Iv) : Prop := a.2 ≤ b.1 ∨ b.2 ≤ a.1

/-- Ordering of intervals by their start coordinate. -/
def startLE (a b : Iv) : Prop := a.1 ≤ b.1

instance : DecidableRel startLE := fun a b => Nat.decLe a.1 b.1

instance : IsTotal Iv startLE := ⟨fun a b => Nat.le_total a.1 b.1⟩

instance : IsTrans Iv startLE := ⟨fun _ _ _ => Nat.le_trans⟩

/-! ## Unmappable-Region Filter -/

/-- Modelled from the spec: the sweep underlying the Unmappable-Region Filter
(`basenji_data.py -g`, not in the repository excerpt).  Given a cursor, the
chromosome length `n` and a list of excluded intervals sorted by start, it
emits the gaps between the exclusions; overlapping exclusions are merged on
the fly by advancing the cursor to the furthest end seen so far. -/
def sweepGaps (cursor n : ℕ) : List Iv → List Iv
  | [] => if cursor < n then [(cursor, n)] else []
  | (s, e) :: rest =>
      (if cursor < s then [(cursor, s)] else []) ++ sweepGaps (max cursor e) n rest

/-- Modelled from the spec: the Unmappable-Region Filter
(`basenji_data.py -g`, not in the repository excerpt).  Excluded intervals may
arrive unsorted or overlapping; they are sorted by start and the mappable
complement of their merged union inside `[0, n)` is returned. -/
def complementIntervals (n : ℕ) (excl : List Iv) : List Iv :=
  sweepGaps 0 n (List.insertionSort startLE excl)

/-! ## Genomic intervals with a chromosome, and Contigs -/

/-- A Genomic Interval of the spec's data model: `(chromosome, start, end)`,
half-open and 0-based (the reserved word `end` is rendered `stop`). -/
structure GInterval where
  chrom : String
  start : ℕ
  stop : ℕ
deriving DecidableEq

/-- A Contig is a maximal Genomic Interval free of excluded regions. -/
abbrev Contig := GInterval

/-- Nucleotide length of a genomic interval. -/
def GInterval.len (c : GInterval) : ℕ := c.stop - c.start

/-! ## Window Tiler -/

/-- Modelled from the spec: number of fixed-length windows the Window Tiler
(part of `basenji_data.py`, not in the repository excerpt) places on a contig
of length `len` with window length `L` and stride `S`; the final partial
window at the contig's tail is dropped. -/
def numWindows (len L S : ℕ) : ℕ :=
  if len < L then 0 else (len - L) / S + 1

/-- The `i`-th window placed on contig `c` with stride `S` and length `L`. -/
def windowAt (c : Contig) (S L : ℕ) (i : ℕ) : Iv :=
  (c.start + i * S, c.start + i * S + L)

/-- Modelled from the spec: the Window Tiler (part of `basenji_data.py`, not
in the repository excerpt) slices a contig into fixed-length fixed-stride
windows, dropping the partial window at the tail. -/
def tile (L S : ℕ) (c : Contig) : List Iv :=
  (List.range (numWindows c.len L S)).map (windowAt c S L)

/-- Number of positions shared by two half-open intervals. -/
def overlapLen (a b : Iv) : ℕ := min a.2 b.2 - max a.1 b.1

/-- Modelled from the spec: the stride options of `basenji_data.py` (not in
the repository excerpt) are given in units of the window length and converted
to nucleotides, as reported by "stride_train 1 converted to 131072.000000". -/
def effectiveStride (r L : ℕ) : ℕ := r * L

/-! ## Split Allocator -/

/-- Total nucleotide length of a list of contigs, as a rational. -/
def totalLen (cs : List Contig) : ℚ := ((cs.map GInterval.len).sum : ℕ)

/-- Modelled from the spec: the greedy bucket filler of the Split Allocator
(part of `basenji_data.py`, not in the repository excerpt).  Contigs are
assigned to the bucket, in input order, until the accumulated nucleotide
length reaches the target `tgt`; it returns the bucket and the remainder. -/
def greedyTake (tgt : ℚ) : List Contig → List Contig × List Contig
  | [] => ([], [])
  | c :: cs =>
      if 0 < tgt then
        let p := greedyTake (tgt - (c.len : ℚ)) cs
        (c :: p.1, p.2)
      else ([], c :: cs)

/-- The three buckets produced by the Split Allocator. -/
structure SplitResult where
  test : List Contig
  valid : List Contig
  train : List Contig

/-- Modelled from the spec: the Split Allocator (part of `basenji_data.py`,
not in the repository excerpt).  It greedily fills the test bucket up to
fraction `t1` of the total nucleotide length, then the valid bucket up to
fraction `t2`, and the remainder is train; whole contigs are assigned, never
parts of one. -/
def splitAlloc (t1 t2 : ℚ) (cs : List Contig) : SplitResult :=
  let T := totalLen cs
  let p1 := greedyTake (t1 * T) cs
  let p2 := greedyTake (t2 * T) p1.2
  ⟨p1.1, p2.1, p2.2⟩

/-- Split labels of the manifest. -/
inductive SplitLabel
  | train
  | valid
  | test
deriving DecidableEq

/-- Each contig of a split result paired with its split label. -/
def labelContigs (r : SplitResult) : List (Contig × SplitLabel) :=
  r.test.map (fun c => (c, SplitLabel.test)) ++
    r.valid.map (fun c => (c, SplitLabel.valid)) ++
      r.train.map (fun c => (c, SplitLabel.train))

/-- All windows tiled from a list of contigs, in order. -/
def splitWindows (L S : ℕ) (cs : List Contig) : List Iv :=
  cs.flatMap (tile L S)

/-- Number of windows tiled from a list of contigs. -/
def nWindows (L S : ℕ) (cs : List Contig) : ℕ :=
  (splitWindows L S cs).length

/-- Modelled from the spec: the window manifest (`sequences.bed`), one row
per window `(interval, label)`, every window of a contig carrying the
contig's split label. -/
def manifest (L S : ℕ) (r : SplitResult) : List (Iv × SplitLabel) :=
  (labelContigs r).flatMap (fun cl => (tile L S cl.1).map (fun w => (w, cl.2)))

/-! ## Region validation and pipeline launch -/

/-- Length lookup for a chromosome in the genome's length table. -/
def chromLen (genome : List (String × ℕ)) (c : String) : Option ℕ :=
  (genome.find? (fun p => p.1 == c)).map Prod.snd

/-- Does this excluded region run past the end of its chromosome? -/
def badRegion (genome : List (String × ℕ)) (r : GInterval) : Bool :=
  match chromLen genome r.chrom with
  | some n => decide (n < r.stop)
  | none => false

/-- Modelled from the spec: validation of the excluded-region list (error
taxonomy of `basenji_data.py`, not in the repository excerpt).  It fails with
`InvalidRegion` exactly on a region whose end exceeds its chromosome's known
length. -/
def validateRegions (genome : List (String × ℕ)) (rs : List GInterval) :
    Except String Unit :=
  match rs.find? (badRegion genome) with
  | some r => Except.error ("InvalidRegion: " ++ r.chrom)
  | none => Except.ok ()

/-- Modelled from the spec: the run skeleton of `basenji_data.py` (not in the
repository excerpt).  Validation runs first; only when it succeeds are the
workers launched, so a validation failure aborts the run before any worker
output exists. -/
def runPipeline (genome : List (String × ℕ)) (rs : List GInterval)
    (work : List GInterval → List String) : Except String (List String) :=
  match validateRegions genome rs with
  | Except.error e => Except.error e
  | Except.ok _ => Except.ok (work rs)

/-! ## Coverage Binner -/

/-- Summary statistic kinds of the samples table. -/
inductive SumStat
  | sum
  | mean
deriving DecidableEq

/-- Clip a raw per-nucleotide value to `[0, clip]`. -/
def clipValue (clip v : ℚ) : ℚ := max 0 (min v clip)

/-- The per-nucleotide values of a window grouped into bins of width `w`
(the partial tail bin, if any, is dropped). -/
def binRows (w : ℕ) (l : List ℚ) : List (List ℚ) :=
  (List.range (l.length / w)).map (fun i => (l.drop (i * w)).take w)

/-- Aggregate one bin with the configured summary statistic. -/
def aggregate : SumStat → List ℚ → ℚ
  | SumStat.sum, b => b.sum
  | SumStat.mean, b => b.sum / (b.length : ℚ)

/-- Modelled from the spec: the Coverage Binner (`basenji_data_read.py`, not
in the repository excerpt).  Raw per-nucleotide values are clipped to
`[0, clip]` first, then grouped into bins of width `w`, then each bin is
aggregated with the configured summary statistic. -/
def coverageBin (clip : ℚ) (stat : SumStat) (w : ℕ) (l : List ℚ) : List ℚ :=
  (binRows w (l.map (clipValue clip))).map (aggregate stat)

/-! ## Record Writer sequence encoding -/

/-- Modelled from the spec: the Record Writer's fixed-alphabet numeric
encoding of one nucleotide (`basenji_data_write.py`, not in the repository
excerpt): A, C, G, T map to 0, 1, 2, 3, and any ambiguous base falls back to
code 0, the documented fallback. -/
def encodeNt (ch : Char) : ℕ :=
  if ch = 'A' then 0
  else if ch = 'C' then 1
  else if ch = 'G' then 2
  else if ch = 'T' then 3
  else 0

/-- Decoding of one numeric nucleotide code. -/
def decodeNt (k : ℕ) : Char :=
  if k = 0 then 'A' else if k = 1 then 'C' else if k = 2 then 'G' else 'T'

/-- Numeric encoding of a window's nucleotide sequence. -/
def encodeSeq (s : List Char) : List ℕ := s.map encodeNt

/-- Decoding of a window's numeric sequence back to nucleotides. -/
def decodeSeq (l : List ℕ) : List Char := l.map decodeNt

/-! ## Notebook cell 5: the samples table -/

/-- Header row of the samples table written by cell 5 of the notebook. -/
def samplesHeader : List String :=
  ["index", "identifier", "file", "clip", "sum_stat", "description"]

/-- Data rows of the samples table written by cell 5 of the notebook. -/
def samplesRows : List (List String) :=
  [["0", "CNhs11760", "data/CNhs11760.bw", "384", "sum", "aorta"],
   ["1", "CNhs12843", "data/CNhs12843.bw", "384", "sum", "artery"],
   ["2", "CNhs12856", "data/CNhs12856.bw", "384", "sum", "pulmonic_valve"]]

/-- The `lines` list assembled by cell 5. -/
def samplesLines : List (List String) := samplesHeader :: samplesRows

/-- Cell 5 writes each line tab-joined, one line per list entry. -/
def writeSamplesTable : List String :=
  samplesLines.map (fun l => String.intercalate "\t" l)

/-- Splitting a list of characters at tab characters, accumulator style. -/
def splitTabAux : List Char → List Char → List (List Char)
  | [], acc => [acc.reverse]
  | c :: rest, acc =>
      if c = '\t' then acc.reverse :: splitTabAux rest []
      else splitTabAux rest (c :: acc)

/-- Modelled from the spec: the loader side of the sample-track-table input
contract (the table reader of `basenji_data.py`, not in the repository
excerpt) splits each line at tab characters. -/
def splitFields (s : String) : List String :=
  (splitTabAux s.toList []).map List.asString

/-- Parse a run of decimal digits, accumulator style. -/
def parseNatAux : List Char → ℕ → Option ℕ
  | [], acc => some acc
  | c :: rest, acc =>
      if c.isDigit then parseNatAux rest (acc * 10 + (c.toNat - 48)) else none

/-- Modelled from the spec: the integer reading of the table's index column
(the table reader of `basenji_data.py`, not in the repository excerpt). -/
def parseNatField (s : String) : Option ℕ :=
  if s.isEmpty then none else parseNatAux s.toList 0

/-- Loading the written table back per the input contract, line by line. -/
def loadSamplesTable (ls : List String) : List (List String) :=
  ls.map splitFields

/-- One Coverage Binner invocation as printed by `basenji_data.py`. -/
structure BinnerJob where
  track : String
  clip : String
  stat : String
  outFile : String
deriving DecidableEq

/-- The three `basenji_data_read.py` jobs observed in the notebook's cell 7
output: per track, `-u sum -c 384.000000`, writing `0.h5`, `1.h5`, `2.h5`. -/
def observedBinnerJobs : List BinnerJob :=
  [⟨"data/CNhs11760.bw", "384.000000", "sum", "0.h5"⟩,
   ⟨"data/CNhs12843.bw", "384.000000", "sum", "1.h5"⟩,
   ⟨"data/CNhs12856.bw", "384.000000", "sum", "2.h5"⟩]

/-! ## Notebook cells 1 and 3: download guards -/

/-- Cell 1 of the notebook: when `data/hg19.ml.fa` is absent it downloads the
FASTA and its index; when it is present it downloads nothing. -/
def cell1Downloads (isfile : String → Bool) : List String :=
  if isfile "data/hg19.ml.fa" then []
  else ["data/hg19.ml.fa", "data/hg19.ml.fa.fai"]

/-- Cell 3 of the notebook: when `data/CNhs11760.bw` is absent it downloads
the three coverage tracks; when it is present it downloads nothing. -/
def cell3Downloads (isfile : String → Bool) : List String :=
  if isfile "data/CNhs11760.bw" then []
  else ["data/CNhs11760.bw", "data/CNhs12843.bw", "data/CNhs12856.bw"]

/-! ## Theorems -/

theorem coveredBy_iff (l : List Iv) (p : ℕ) :
    coveredBy l p = true ↔ ∃ iv ∈ l, iv.1 ≤ p ∧ p < iv.2 := by
  simp [coveredBy, ivContains, List.any_eq_true]

theorem coveredBy_eq_false_iff (l : List Iv) (p : ℕ) :
    coveredBy l p = false ↔ ∀ iv ∈ l, ¬ (iv.1 ≤ p ∧ p < iv.2) := by
  constructor
  · intro h iv hiv hand
    have := coveredBy_iff l p
    rw [h] at this
    exact absurd (this.mpr ⟨iv, hiv, hand⟩) (by simp)
  · intro h
    rw [← Bool.not_eq_true, coveredBy_iff]
    push_neg
    intro iv hiv hle
    exact Nat.le_of_not_lt (fun hlt => h iv hiv ⟨hle, hlt⟩)

/-- C10: each download cell fetches its file group only when the group's
first file is absent; when the first file is present nothing of the group is
downloaded (so nothing is overwritten), and missing companion files are never
fetched on their own. -/
theorem download_guards (isfile : String → Bool) :
    (isfile "data/hg19.ml.fa" = true →
      cell1Downloads isfile = [] ∧ "data/hg19.ml.fa.fai" ∉ cell1Downloads isfile) ∧
    (isfile "data/CNhs11760.bw" = true →
      cell3Downloads isfile = [] ∧ "data/CNhs12843.bw" ∉ cell3Downloads isfile ∧
        "data/CNhs12856.bw" ∉ cell3Downloads isfile) ∧
    (isfile "data/hg19.ml.fa" = false →
      cell1Downloads isfile = ["data/hg19.ml.fa", "data/hg19.ml.fa.fai"]) ∧
    (isfile "data/CNhs11760.bw" = false →
      cell3Downloads isfile =
        ["data/CNhs11760.bw", "data/CNhs12843.bw", "data/CNhs12856.bw"]) := by
  refine ⟨fun h => ?_, fun h => ?_, fun h => ?_, fun h => ?_⟩ <;>
    simp [cell1Downloads, cell3Downloads, h]

/-- C10 witness: with all files present cell 1 downloads nothing; with the
first coverage file absent cell 3 downloads the whole group. -/
theorem download_guards_witness :
    (cell1Downloads (fun _ => true) = [] ∧
      "data/hg19.ml.fa.fai" ∉ cell1Downloads (fun _ => true)) ∧
    cell3Downloads (fun _ => false) =
      ["data/CNhs11760.bw", "data/CNhs12843.bw", "data/CNhs12856.bw"] :=
  ⟨(download_guards (fun _ => true)).1 rfl,
    (download_guards (fun _ => false)).2.2.2 rfl⟩

/-- C8: encoding a window sequence over the 4-letter nucleotide alphabet and
decoding it yields the original string exactly. -/
theorem encode_decode_roundtrip (s : List Char)
    (h : ∀ ch ∈ s, ch = 'A' ∨ ch = 'C' ∨ ch = 'G' ∨ ch = 'T') :
    decodeSeq (encodeSeq s) = s := by
  unfold decodeSeq encodeSeq
  rw [List.map_map]
  have hpt : ∀ ch ∈ s, (decodeNt ∘ encodeNt) ch = id ch := by
    intro ch hch
    rcases h ch hch with h1 | h1 | h1 | h1 <;> subst h1 <;> rfl
  rw [List.map_congr_left hpt, List.map_id]

/-- C8 witness: the round trip on the concrete sequence ACGT. -/
theorem encode_decode_roundtrip_witness :
    (∀ ch ∈ ['A', 'C', 'G', 'T'], ch = 'A' ∨ ch = 'C' ∨ ch = 'G' ∨ ch = 'T') ∧
    decodeSeq (encodeSeq ['A', 'C', 'G', 'T']) = ['A', 'C', 'G', 'T'] :=
  ⟨by decide, encode_decode_roundtrip ['A', 'C', 'G', 'T'] (by decide)⟩

/-- C9: the samples table written by cell 5 loads back under the
sample-track-table input contract as the header plus one six-field row per
track, the indices parse to the unique consecutive integers 0, 1, 2, and the
observed Coverage Binner jobs run once per row `i`, on that row's file with
that row's clip and summary-stat values, writing `i.h5`. -/
theorem samples_table_contract :
    loadSamplesTable writeSamplesTable = samplesLines ∧
    (∀ l ∈ samplesLines, l.length = 6) ∧
    samplesRows.map (fun r => parseNatField r.headI) = [some 0, some 1, some 2] ∧
    observedBinnerJobs =
      samplesRows.map (fun r =>
        ⟨r.getD 2 "", r.getD 3 "" ++ ".000000", r.getD 4 "", r.headI ++ ".h5"⟩) :=
  ⟨by decide, by decide, by decide, by decide⟩

theorem badRegion_iff (genome : List (String × ℕ)) (r : GInterval) :
    badRegion genome r = true ↔
      ∃ n, chromLen genome r.chrom = some n ∧ n < r.stop := by
  unfold badRegion
  cases h : chromLen genome r.chrom <;> simp [h]

/-- C5: validation fails with `InvalidRegion` exactly when some excluded
region's end exceeds its chromosome's known length; on failure the error
names the offending chromosome and the whole run aborts with that error
before any worker is launched, whatever the workers would have produced. -/
theorem invalid_region_detection (genome : List (String × ℕ)) (rs : List GInterval) :
    ((∃ r ∈ rs, ∃ n, chromLen genome r.chrom = some n ∧ n < r.stop) ↔
      ∃ e, validateRegions genome rs = Except.error e) ∧
    (∀ e, validateRegions genome rs = Except.error e →
      (∃ r ∈ rs, badRegion genome r = true ∧ e = "InvalidRegion: " ++ r.chrom) ∧
      ∀ work : List GInterval → List String,
        runPipeline genome rs work = Except.error e) := by
  constructor
  · constructor
    · rintro ⟨r, hr, hbad⟩
      unfold validateRegions
      cases hf : rs.find? (badRegion genome) with
      | none =>
          exact absurd ((badRegion_iff genome r).mpr hbad)
            (by simpa using List.find?_eq_none.mp hf r hr)
      | some r2 => exact ⟨_, rfl⟩
    · rintro ⟨e, he⟩
      unfold validateRegions at he
      cases hf : rs.find? (badRegion genome) with
      | none => rw [hf] at he; exact absurd he (by simp)
      | some r2 =>
          exact ⟨r2, List.mem_of_find?_eq_some hf,
            (badRegion_iff genome r2).mp (List.find?_some hf)⟩
  · intro e he
    refine ⟨?_, ?_⟩
    · unfold validateRegions at he
      cases hf : rs.find? (badRegion genome) with
      | none => rw [hf] at he; exact absurd he (by simp)
      | some r2 =>
          rw [hf] at he
          exact ⟨r2, List.mem_of_find?_eq_some hf, List.find?_some hf,
            (Except.error.inj he).symm⟩
    · intro work
      unfold runPipeline
      rw [he]

/-- C5 witness: a region past the end of its chromosome is rejected and the
run aborts before the worker runs. -/
theorem invalid_region_detection_witness :
    (∃ r ∈ [(⟨"chr1", 0, 20⟩ : GInterval)],
      badRegion [("chr1", 10)] r = true ∧
        "InvalidRegion: chr1" = "InvalidRegion: " ++ r.chrom) ∧
    runPipeline [("chr1", 10)] [⟨"chr1", 0, 20⟩] (fun _ => ["shard"]) =
      Except.error "InvalidRegion: chr1" :=
  ⟨((invalid_region_detection [("chr1", 10)] [⟨"chr1", 0, 20⟩]).2
      "InvalidRegion: chr1" rfl).1,
    ((invalid_region_detection [("chr1", 10)] [⟨"chr1", 0, 20⟩]).2
      "InvalidRegion: chr1" rfl).2 (fun _ => ["shard"])⟩

theorem binRows_replicate (w len : ℕ) (v : ℚ) (hw : 0 < w) :
    binRows w (List.replicate len v) = List.replicate (len / w) (List.replicate w v) := by
  unfold binRows
  rw [List.length_replicate]
  refine List.eq_replicate_iff.mpr ⟨by simp, ?_⟩
  intro b hb
  obtain ⟨i, hi, rfl⟩ := List.mem_map.mp hb
  have hi2 : i < len / w := List.mem_range.mp hi
  have hmul : (i + 1) * w ≤ len := by
    have h1 : i + 1 ≤ len / w := hi2
    calc (i + 1) * w ≤ len / w * w := Nat.mul_le_mul_right w h1
    _ ≤ len := Nat.div_mul_le_self len w
  have hsucc : (i + 1) * w = i * w + w := Nat.succ_mul i w
  rw [List.drop_replicate, List.take_replicate]
  congr 1
  omega

theorem aggregate_sum_replicate (w : ℕ) (x : ℚ) :
    aggregate SumStat.sum (List.replicate w x) = w * x := by
  simp [aggregate, List.sum_replicate, nsmul_eq_mul]

theorem aggregate_mean_replicate (w : ℕ) (x : ℚ) (hw : 0 < w) :
    aggregate SumStat.mean (List.replicate w x) = x := by
  have hw2 : ((w : ℚ)) ≠ 0 := Nat.cast_ne_zero.mpr (Nat.pos_iff_ne_zero.mp hw)
  simp [aggregate, List.sum_replicate, nsmul_eq_mul]
  rw [mul_comm]
  exact mul_div_cancel_right₀ x hw2

theorem coverageBin_replicate (clip v : ℚ) (stat : SumStat) (w len : ℕ) (hw : 0 < w) :
    coverageBin clip stat w (List.replicate len v) =
      List.replicate (len / w) (aggregate stat (List.replicate w (clipValue clip v))) := by
  unfold coverageBin
  rw [List.map_replicate, binRows_replicate w len _ hw, List.map_replicate]

theorem clipValue_of_le (clip v : ℚ) (h0 : 0 ≤ v) (hc : v ≤ clip) :
    clipValue clip v = v := by
  unfold clipValue
  rw [min_eq_left hc, max_eq_right h0]

/-- C6: with clip 384, sum aggregation and raw per-nucleotide values all 1000,
every bin aggregates to 384 × bin width — the clip is applied before the
sum. -/
theorem clip_before_sum (len w : ℕ) (hw : 0 < w) :
    coverageBin 384 SumStat.sum w (List.replicate len 1000) =
      List.replicate (len / w) ((384 : ℚ) * w) := by
  rw [coverageBin_replicate _ _ _ _ _ hw]
  have hc : clipValue 384 1000 = 384 := by
    unfold clipValue
    norm_num
  rw [hc, aggregate_sum_replicate, mul_comm]

/-- C6 witness: six values of 1000 in bins of width 2 give three bins of
768 = 384 × 2. -/
theorem clip_before_sum_witness :
    0 < 2 ∧ coverageBin 384 SumStat.sum 2 (List.replicate 6 1000) =
      List.replicate 3 (768 : ℚ) :=
  ⟨Nat.zero_lt_two, (clip_before_sum 6 2 Nat.zero_lt_two).trans (by norm_num)⟩

/-- C7: for a constant per-nucleotide signal `v` below the clip, the Coverage
Binner yields a vector of length `window_length / bin_width` whose every bin
is `v × bin_width` under sum aggregation and `v` under mean aggregation. -/
theorem binner_constant_signal (clip v : ℚ) (w len : ℕ) (stat : SumStat)
    (h0 : 0 ≤ v) (hc : v ≤ clip) (hw : 0 < w) :
    coverageBin clip SumStat.sum w (List.replicate len v) =
      List.replicate (len / w) (v * w) ∧
    coverageBin clip SumStat.mean w (List.replicate len v) =
      List.replicate (len / w) v ∧
    (coverageBin clip stat w (List.replicate len v)).length = len / w := by
  have hclip := clipValue_of_le clip v h0 hc
  refine ⟨?_, ?_, ?_⟩
  · rw [coverageBin_replicate _ _ _ _ _ hw, hclip, aggregate_sum_replicate, mul_comm]
  · rw [coverageBin_replicate _ _ _ _ _ hw, hclip, aggregate_mean_replicate _ _ hw]
  · rw [coverageBin_replicate _ _ _ _ _ hw, List.length_replicate]

/-- C7 witness: constant value 5 below clip 10, bins of width 2 over a
window of length 6. -/
theorem binner_constant_signal_witness :
    ((0 : ℚ) ≤ 5 ∧ (5 : ℚ) ≤ 10 ∧ 0 < 2) ∧
    (coverageBin 10 SumStat.sum 2 (List.replicate 6 5) =
        List.replicate (6 / 2) (5 * 2) ∧
      coverageBin 10 SumStat.mean 2 (List.replicate 6 5) =
        List.replicate (6 / 2) 5 ∧
      (coverageBin 10 SumStat.sum 2 (List.replicate 6 5)).length = 6 / 2) :=
  ⟨⟨by norm_num, by norm_num, Nat.zero_lt_two⟩,
    binner_constant_signal 10 5 2 6 SumStat.sum (by norm_num) (by norm_num)
      Nat.zero_lt_two⟩

/-- C3: the tiler's output windows are exactly `windowAt c S L i` for
`i` below the output length; windows are pairwise non-overlapping when the
stride equals the window length; when the stride is smaller, consecutive
windows overlap by exactly `L - S`; and when the stride cannot tile the
contig more than once the tiler produces exactly one window per contig,
the configured stride 1 having been converted to the effective stride `L`. -/
theorem window_tiler_overlap (c : Contig) (L S : ℕ) :
    (∀ i, ∀ h : i < (tile L S c).length, (tile L S c).get ⟨i, h⟩ = windowAt c S L i) ∧
    (S = L → ∀ i j, i < j →
      overlapLen (windowAt c S L i) (windowAt c S L j) = 0) ∧
    (0 < S → S < L → ∀ i,
      overlapLen (windowAt c S L i) (windowAt c S L (i + 1)) = L - S) ∧
    (L ≤ c.len → c.len < L + S → (tile L S c).length = 1) ∧
    effectiveStride 1 L = L := by
  refine ⟨?_, ?_, ?_, ?_, ?_⟩
  · intro i h
    simp [tile]
  · intro hSL i j hij
    subst hSL
    have h1 : (i + 1) * S ≤ j * S := Nat.mul_le_mul_right S (Nat.succ_le_of_lt hij)
    have h2 : (i + 1) * S = i * S + S := Nat.succ_mul i S
    unfold overlapLen windowAt
    simp only []
    omega
  · intro hS hSL i
    have h2 : (i + 1) * S = i * S + S := Nat.succ_mul i S
    unfold overlapLen windowAt
    simp only []
    omega
  · intro h1 h2
    have hlen : (tile L S c).length = numWindows c.len L S := by
      simp [tile]
    rw [hlen]
    unfold numWindows
    rw [if_neg (Nat.not_lt.mpr h1), Nat.div_eq_of_lt (by omega)]
  · exact Nat.one_mul L

/-- C3 witness: stride 4 = length gives disjoint windows, stride 2 < 4 gives
an overlap of 2 = 4 - 2, and a contig of length 5 with L = 4, S = 3 yields
exactly one window. -/
theorem window_tiler_overlap_witness :
    overlapLen (windowAt ⟨"chr1", 0, 20⟩ 4 4 0) (windowAt ⟨"chr1", 0, 20⟩ 4 4 1) = 0 ∧
    overlapLen (windowAt ⟨"chr1", 0, 20⟩ 2 4 0) (windowAt ⟨"chr1", 0, 20⟩ 2 4 1) = 4 - 2 ∧
    (tile 4 3 ⟨"chr1", 0, 5⟩).length = 1 :=
  ⟨(window_tiler_overlap ⟨"chr1", 0, 20⟩ 4 4).2.1 rfl 0 1 Nat.zero_lt_one,
    (window_tiler_overlap ⟨"chr1", 0, 20⟩ 4 2).2.2.1 Nat.zero_lt_two (by decide) 0,
    (window_tiler_overlap ⟨"chr1", 0, 5⟩ 4 3).2.2.2.1 (by decide) (by decide)⟩

theorem totalLen_append (l1 l2 : List Contig) :
    totalLen (l1 ++ l2) = totalLen l1 + totalLen l2 := by
  simp [totalLen]

theorem totalLen_cons (c : Contig) (l : List Contig) :
    totalLen (c :: l) = (c.len : ℚ) + totalLen l := by
  simp [totalLen]

theorem totalLen_nonneg (l : List Contig) : 0 ≤ totalLen l := by
  unfold totalLen
  positivity

theorem greedyTake_of_nonpos {t : ℚ} (l : List Contig) (h : ¬ 0 < t) :
    greedyTake t l = ([], l) := by
  cases l <;> simp [greedyTake, h]

theorem greedyTake_append (t : ℚ) (l : List Contig) :
    (greedyTake t l).1 ++ (greedyTake t l).2 = l := by
  induction l generalizing t with
  | nil => rfl
  | cons c cs ih =>
      by_cases h : 0 < t
      · simp only [greedyTake, if_pos h, List.cons_append]
        rw [ih]
      · simp [greedyTake, h]

theorem splitAlloc_append (t1 t2 : ℚ) (cs : List Contig) :
    (splitAlloc t1 t2 cs).test ++
      ((splitAlloc t1 t2 cs).valid ++ (splitAlloc t1 t2 cs).train) = cs := by
  unfold splitAlloc
  simp only []
  rw [greedyTake_append, greedyTake_append]

theorem mem_labelContigs (r : SplitResult) (c : Contig) (lab : SplitLabel) :
    (c, lab) ∈ labelContigs r ↔
      (c ∈ r.test ∧ lab = SplitLabel.test) ∨
        (c ∈ r.valid ∧ lab = SplitLabel.valid) ∨
          (c ∈ r.train ∧ lab = SplitLabel.train) := by
  simp only [labelContigs, List.mem_append, List.mem_map, Prod.mk.injEq]
  constructor
  · rintro ((⟨a, ha, rfl, rfl⟩ | ⟨a, ha, rfl, rfl⟩) | ⟨a, ha, rfl, rfl⟩)
    · exact Or.inl ⟨ha, rfl⟩
    · exact Or.inr (Or.inl ⟨ha, rfl⟩)
    · exact Or.inr (Or.inr ⟨ha, rfl⟩)
  · rintro (⟨hc, rfl⟩ | ⟨hc, rfl⟩ | ⟨hc, rfl⟩)
    · exact Or.inl (Or.inl ⟨c, hc, rfl, rfl⟩)
    · exact Or.inl (Or.inr ⟨c, hc, rfl, rfl⟩)
    · exact Or.inr ⟨c, hc, rfl, rfl⟩

/-- C2: the Split Allocator assigns every contig exactly one split label, and
every window tiled from that contig enters the manifest with that same label
— splitting happens at contig granularity, never within a contig. -/
theorem contig_split_granularity (t1 t2 : ℚ) (cs : List Contig) (L S : ℕ)
    (hnd : cs.Nodup) (c : Contig) (hc : c ∈ cs) :
    ∃ lab : SplitLabel,
      ((c, lab) ∈ labelContigs (splitAlloc t1 t2 cs) ∧
        ∀ lab2, (c, lab2) ∈ labelContigs (splitAlloc t1 t2 cs) → lab2 = lab) ∧
      ∀ w ∈ tile L S c, (w, lab) ∈ manifest L S (splitAlloc t1 t2 cs) := by
  have hpart := splitAlloc_append t1 t2 cs
  set r := splitAlloc t1 t2 cs with hr
  rw [← hpart] at hnd hc
  have hnd1 := List.nodup_append.mp hnd
  have hnd2 := List.nodup_append.mp hnd1.2.1
  have hdisj_tv : ∀ x ∈ r.test, x ∉ r.valid := fun x hx hv =>
    hnd1.2.2 hx (List.mem_append_left _ hv)
  have hdisj_tt : ∀ x ∈ r.test, x ∉ r.train := fun x hx hv =>
    hnd1.2.2 hx (List.mem_append_right _ hv)
  have hdisj_vt : ∀ x ∈ r.valid, x ∉ r.train := fun x hx hv => hnd2.2.2 hx hv
  have hmani : ∀ lab, (c, lab) ∈ labelContigs r →
      ∀ w ∈ tile L S c, (w, lab) ∈ manifest L S r := by
    intro lab hmem w hw
    unfold manifest
    refine List.mem_flatMap.mpr ⟨(c, lab), hmem, ?_⟩
    exact List.mem_map.mpr ⟨w, hw, rfl⟩
  rcases List.mem_append.mp hc with hm | hm2
  · refine ⟨SplitLabel.test, ⟨(mem_labelContigs r c _).mpr (Or.inl ⟨hm, rfl⟩), ?_⟩, ?_⟩
    · intro lab2 h2
      rcases (mem_labelContigs r c _).mp h2 with ⟨_, rfl⟩ | ⟨h3, rfl⟩ | ⟨h3, rfl⟩
      · rfl
      · exact absurd h3 (hdisj_tv c hm)
      · exact absurd h3 (hdisj_tt c hm)
    · exact hmani _ ((mem_labelContigs r c _).mpr (Or.inl ⟨hm, rfl⟩))
  rcases List.mem_append.mp hm2 with hm | hm
  · refine ⟨SplitLabel.valid,
      ⟨(mem_labelContigs r c _).mpr (Or.inr (Or.inl ⟨hm, rfl⟩)), ?_⟩, ?_⟩
    · intro lab2 h2
      rcases (mem_labelContigs r c _).mp h2 with ⟨h3, rfl⟩ | ⟨_, rfl⟩ | ⟨h3, rfl⟩
      · exact absurd hm (hdisj_tv c h3)
      · rfl
      · exact absurd h3 (hdisj_vt c hm)
    · exact hmani _ ((mem_labelContigs r c _).mpr (Or.inr (Or.inl ⟨hm, rfl⟩)))
  · refine ⟨SplitLabel.train,
      ⟨(mem_labelContigs r c _).mpr (Or.inr (Or.inr ⟨hm, rfl⟩)), ?_⟩, ?_⟩
    · intro lab2 h2
      rcases (mem_labelContigs r c _).mp h2 with ⟨h3, rfl⟩ | ⟨h3, rfl⟩ | ⟨_, rfl⟩
      · exact absurd hm (hdisj_tt c h3)
      · exact absurd hm (hdisj_vt c h3)
      · rfl
    · exact hmani _ ((mem_labelContigs r c _).mpr (Or.inr (Or.inr ⟨hm, rfl⟩)))

/-- C2 witness: the single contig of a one-contig run carries one label and
all its windows enter the manifest with it. -/
theorem contig_split_granularity_witness :
    List.Nodup [(⟨"chr1", 0, 10⟩ : Contig)] ∧
    ∃ lab : SplitLabel,
      ((⟨"chr1", 0, 10⟩, lab) ∈
          labelContigs (splitAlloc (1/10) (1/10) [⟨"chr1", 0, 10⟩]) ∧
        ∀ lab2, (⟨"chr1", 0, 10⟩, lab2) ∈
            labelContigs (splitAlloc (1/10) (1/10) [⟨"chr1", 0, 10⟩]) → lab2 = lab) ∧
      ∀ w ∈ tile 4 4 ⟨"chr1", 0, 10⟩,
        (w, lab) ∈ manifest 4 4 (splitAlloc (1/10) (1/10) [⟨"chr1", 0, 10⟩]) :=
  ⟨List.nodup_singleton _,
    contig_split_granularity (1/10) (1/10) [⟨"chr1", 0, 10⟩] 4 4
      (List.nodup_singleton _) ⟨"chr1", 0, 10⟩ (List.mem_singleton.mpr rfl)⟩

theorem splitWindows_append (L S : ℕ) (l1 l2 : List Contig) :
    splitWindows L S (l1 ++ l2) = splitWindows L S l1 ++ splitWindows L S l2 := by
  simp [splitWindows]

theorem greedyTake_totalLen_lt (l : List Contig) (t M : ℚ) (hM : 0 < M)
    (hlen : ∀ c ∈ l, (c.len : ℚ) ≤ M) (ht : 0 < t) :
    totalLen (greedyTake t l).1 < t + M := by
  induction l generalizing t with
  | nil =>
      simp only [greedyTake, totalLen, List.map_nil, List.sum_nil, Nat.cast_zero]
      linarith
  | cons c cs ih =>
      simp only [greedyTake, if_pos ht]
      rw [totalLen_cons]
      have hcM : (c.len : ℚ) ≤ M := hlen c (List.mem_cons_self c cs)
      by_cases h2 : 0 < t - (c.len : ℚ)
      · have := ih (t - (c.len : ℚ)) (fun x hx => hlen x (List.mem_cons_of_mem c hx)) h2
        linarith
      · rw [greedyTake_of_nonpos cs h2]
        simp only [totalLen, List.map_nil, List.sum_nil, Nat.cast_zero]
        linarith

theorem le_greedyTake_totalLen (l : List Contig) (t : ℚ) :
    min t (totalLen l) ≤ totalLen (greedyTake t l).1 := by
  induction l generalizing t with
  | nil =>
      simp only [greedyTake, totalLen, List.map_nil, List.sum_nil, Nat.cast_zero]
      exact min_le_right t 0
  | cons c cs ih =>
      by_cases h : 0 < t
      · simp only [greedyTake, if_pos h]
        rw [totalLen_cons, totalLen_cons]
        have hrec := ih (t - (c.len : ℚ))
        rcases le_total (t - (c.len : ℚ)) (totalLen cs) with h1 | h1
        · rw [min_eq_left h1] at hrec
          have := min_le_left t ((c.len : ℚ) + totalLen cs)
          linarith
        · rw [min_eq_right h1] at hrec
          have := min_le_right t ((c.len : ℚ) + totalLen cs)
          linarith
      · rw [greedyTake_of_nonpos _ h]
        simp only [totalLen, List.map_nil, List.sum_nil, Nat.cast_zero]
        push_neg at h
        exact le_trans (min_le_left t _) h

/-- C1 counterexample: a run with a single contig of length 100 and target
fractions 0.1/0.1 puts the whole genome in the test split, so the realized
test fraction 1.0 misses the 0.1 target by far more than the ±2% tolerance —
the claim does not hold for every run. -/
theorem split_allocator_tolerance_cex :
    ¬ (|totalLen (splitAlloc (1/10) (1/10) [⟨"chr1", 0, 100⟩]).test /
        totalLen [⟨"chr1", 0, 100⟩] - 1/10| ≤ 2/100) := by
  have hT : totalLen [(⟨"chr1", 0, 100⟩ : Contig)] = 100 := by
    norm_num [totalLen, GInterval.len]
  have h1 : splitAlloc (1/10) (1/10) [⟨"chr1", 0, 100⟩] =
      ⟨[⟨"chr1", 0, 100⟩], [], []⟩ := by
    norm_num [splitAlloc, hT, greedyTake, GInterval.len]
  rw [h1, hT]
  have ha : |(100 : ℚ)/100 - 1/10| = 9/10 := by
    rw [abs_of_nonneg] <;> norm_num
  rw [ha]
  norm_num

/-- C1 (amended): window counts always add up across the three splits and,
when the tiled windows are pairwise distinct, no window lies in two splits;
the realized test and valid nucleotide fractions are within the tolerance
`tol` of the targets provided every contig is at most a `tol` fraction of the
genome and the targets plus tolerance fit below 1. -/
theorem split_allocator_partition (t1 t2 tol : ℚ) (cs : List Contig) (L S : ℕ)
    (hT : 0 < totalLen cs)
    (hM : ∀ c ∈ cs, (c.len : ℚ) ≤ tol * totalLen cs)
    (htol : 0 < tol) (ht1 : 0 < t1) (ht2 : 0 < t2)
    (hsum : t1 + t2 + tol ≤ 1) :
    nWindows L S (splitAlloc t1 t2 cs).test + nWindows L S (splitAlloc t1 t2 cs).valid +
        nWindows L S (splitAlloc t1 t2 cs).train = nWindows L S cs ∧
    ((splitWindows L S cs).Nodup →
      ∀ w : Iv,
        ¬ (w ∈ splitWindows L S (splitAlloc t1 t2 cs).test ∧
            w ∈ splitWindows L S (splitAlloc t1 t2 cs).valid) ∧
        ¬ (w ∈ splitWindows L S (splitAlloc t1 t2 cs).test ∧
            w ∈ splitWindows L S (splitAlloc t1 t2 cs).train) ∧
        ¬ (w ∈ splitWindows L S (splitAlloc t1 t2 cs).valid ∧
            w ∈ splitWindows L S (splitAlloc t1 t2 cs).train)) ∧
    |totalLen (splitAlloc t1 t2 cs).test / totalLen cs - t1| ≤ tol ∧
    |totalLen (splitAlloc t1 t2 cs).valid / totalLen cs - t2| ≤ tol := by
  have hpart := splitAlloc_append t1 t2 cs
  set r := splitAlloc t1 t2 cs with hr
  set T := totalLen cs with hTdef
  -- the three buckets are, definitionally, the two greedy passes
  have htest : r.test = (greedyTake (t1 * T) cs).1 := rfl
  have hrest : r.valid ++ r.train = (greedyTake (t1 * T) cs).2 := by
    have : r.valid = (greedyTake (t2 * T) (greedyTake (t1 * T) cs).2).1 := rfl
    rw [this]
    have h2 : r.train = (greedyTake (t2 * T) (greedyTake (t1 * T) cs).2).2 := rfl
    rw [h2]
    exact greedyTake_append _ _
  have hvalid : r.valid = (greedyTake (t2 * T) (greedyTake (t1 * T) cs).2).1 := rfl
  refine ⟨?_, ?_, ?_⟩
  · -- window counts add up because the buckets concatenate to the input
    have := congrArg (fun l => (splitWindows L S l).length) hpart
    simp only [splitWindows_append, List.length_append] at this
    unfold nWindows
    omega
  · -- bucket windows concatenate to the input's windows, so Nodup separates
    intro hnd w
    have hcat : splitWindows L S cs =
        splitWindows L S r.test ++
          (splitWindows L S r.valid ++ splitWindows L S r.train) := by
      conv_lhs => rw [← hpart]
      rw [splitWindows_append, splitWindows_append]
    rw [hcat] at hnd
    have h1 := List.nodup_append.mp hnd
    have h2 := List.nodup_append.mp h1.2.1
    refine ⟨?_, ?_, ?_⟩
    · rintro ⟨ha, hb⟩
      exact h1.2.2 ha (List.mem_append_left _ hb)
    · rintro ⟨ha, hb⟩
      exact h1.2.2 ha (List.mem_append_right _ hb)
    · rintro ⟨ha, hb⟩
      exact h2.2.2 ha hb
  · -- realized fractions
    have hMT : 0 < tol * T := mul_pos htol hT
    have ht1T : 0 < t1 * T := mul_pos ht1 hT
    have ht2T : 0 < t2 * T := mul_pos ht2 hT
    have hup_test : totalLen r.test < t1 * T + tol * T := by
      rw [htest]
      exact greedyTake_totalLen_lt cs (t1 * T) (tol * T) hMT hM ht1T
    have hlo_test : t1 * T ≤ totalLen r.test := by
      have h1 : t1 * T ≤ T := by
        have : t1 ≤ 1 := by linarith
        calc t1 * T ≤ 1 * T := mul_le_mul_of_nonneg_right this hT.le
        _ = T := one_mul T
      have := le_greedyTake_totalLen cs (t1 * T)
      rw [min_eq_left h1] at this
      rw [htest]
      exact this
    have hsum_rest : totalLen r.test + totalLen (greedyTake (t1 * T) cs).2 = T := by
      rw [htest, ← totalLen_append, greedyTake_append]
    have hrest_mem : ∀ c ∈ (greedyTake (t1 * T) cs).2, (c.len : ℚ) ≤ tol * T := by
      intro c hcm
      refine hM c ?_
      rw [← greedyTake_append (t1 * T) cs]
      exact List.mem_append_right _ hcm
    have hlo_rest : t2 * T ≤ totalLen (greedyTake (t1 * T) cs).2 := by
      have hexp : (1 - t1 - tol) * T = T - t1 * T - tol * T := by ring
      have h2 : t2 * T ≤ (1 - t1 - tol) * T :=
        mul_le_mul_of_nonneg_right (by linarith) hT.le
      linarith
    have hup_valid : totalLen r.valid < t2 * T + tol * T := by
      rw [hvalid]
      exact greedyTake_totalLen_lt _ (t2 * T) (tol * T) hMT hrest_mem ht2T
    have hlo_valid : t2 * T ≤ totalLen r.valid := by
      have := le_greedyTake_totalLen (greedyTake (t1 * T) cs).2 (t2 * T)
      rw [min_eq_left hlo_rest] at this
      rw [hvalid]
      exact this
    constructor
    · rw [abs_le]
      constructor
      · have : t1 ≤ totalLen r.test / T := (le_div_iff₀ hT).mpr hlo_test
        linarith
      · have : totalLen r.test / T < t1 + tol := by
          rw [div_lt_iff₀ hT]
          have hexp : (t1 + tol) * T = t1 * T + tol * T := by ring
          linarith
        linarith
    · rw [abs_le]
      constructor
      · have : t2 ≤ totalLen r.valid / T := (le_div_iff₀ hT).mpr hlo_valid
        linarith
      · have : totalLen r.valid / T < t2 + tol := by
          rw [div_lt_iff₀ hT]
          have hexp : (t2 + tol) * T = t2 * T + tol * T := by ring
          linarith
        linarith

/-- C1 witness: two unit-length contigs with targets 0.1/0.1 and tolerance
0.5 — the counts add up, no window is shared, and both realized fractions
are within the tolerance. -/
theorem split_allocator_partition_witness :
    (0 < totalLen [(⟨"chr1", 0, 1⟩ : Contig), ⟨"chr2", 0, 1⟩] ∧
      (1 : ℚ)/10 + 1/10 + 1/2 ≤ 1) ∧
    (nWindows 1 1 (splitAlloc (1/10) (1/10) [⟨"chr1", 0, 1⟩, ⟨"chr2", 0, 1⟩]).test +
        nWindows 1 1 (splitAlloc (1/10) (1/10) [⟨"chr1", 0, 1⟩, ⟨"chr2", 0, 1⟩]).valid +
        nWindows 1 1 (splitAlloc (1/10) (1/10) [⟨"chr1", 0, 1⟩, ⟨"chr2", 0, 1⟩]).train =
        nWindows 1 1 [⟨"chr1", 0, 1⟩, ⟨"chr2", 0, 1⟩] ∧
      ((splitWindows 1 1 [(⟨"chr1", 0, 1⟩ : Contig), ⟨"chr2", 0, 1⟩]).Nodup →
        ∀ w : Iv,
          ¬ (w ∈ splitWindows 1 1 (splitAlloc (1/10) (1/10)
                [⟨"chr1", 0, 1⟩, ⟨"chr2", 0, 1⟩]).test ∧
              w ∈ splitWindows 1 1 (splitAlloc (1/10) (1/10)
                [⟨"chr1", 0, 1⟩, ⟨"chr2", 0, 1⟩]).valid) ∧
          ¬ (w ∈ splitWindows 1 1 (splitAlloc (1/10) (1/10)
                [⟨"chr1", 0, 1⟩, ⟨"chr2", 0, 1⟩]).test ∧
              w ∈ splitWindows 1 1 (splitAlloc (1/10) (1/10)
                [⟨"chr1", 0, 1⟩, ⟨"chr2", 0, 1⟩]).train) ∧
          ¬ (w ∈ splitWindows 1 1 (splitAlloc (1/10) (1/10)
                [⟨"chr1", 0, 1⟩, ⟨"chr2", 0, 1⟩]).valid ∧
              w ∈ splitWindows 1 1 (splitAlloc (1/10) (1/10)
                [⟨"chr1", 0, 1⟩, ⟨"chr2", 0, 1⟩]).train)) ∧
      |totalLen (splitAlloc (1/10) (1/10) [⟨"chr1", 0, 1⟩, ⟨"chr2", 0, 1⟩]).test /
          totalLen [(⟨"chr1", 0, 1⟩ : Contig), ⟨"chr2", 0, 1⟩] - 1/10| ≤ 1/2 ∧
      |totalLen (splitAlloc (1/10) (1/10) [⟨"chr1", 0, 1⟩, ⟨"chr2", 0, 1⟩]).valid /
          totalLen [(⟨"chr1", 0, 1⟩ : Contig), ⟨"chr2", 0, 1⟩] - 1/10| ≤ 1/2) :=
  ⟨⟨by norm_num [totalLen, GInterval.len], by norm_num⟩,
    split_allocator_partition (1/10) (1/10) (1/2)
      [⟨"chr1", 0, 1⟩, ⟨"chr2", 0, 1⟩] 1 1
      (by norm_num [totalLen, GInterval.len])
      (by
        intro c hc
        fin_cases hc <;> norm_num [totalLen, GInterval.len])
      (by norm_num) (by norm_num) (by norm_num) (by norm_num)⟩

/-! ## Unmappable-Region Filter proofs -/

theorem sweepGaps_covered (l : List Iv) (c n p : ℕ)
    (hs : List.Sorted startLE l)
    (hv : ∀ iv ∈ l, iv.1 < iv.2 ∧ iv.2 ≤ n)
    (hc : c ≤ n) :
    coveredBy (sweepGaps c n l) p = true ↔
      c ≤ p ∧ p < n ∧ coveredBy l p = false := by
  induction l generalizing c with
  | nil =>
      by_cases hcn : c < n
      · simp only [sweepGaps, if_pos hcn, coveredBy, List.any_cons, List.any_nil,
          Bool.or_false, ivContains, Bool.and_eq_true, decide_eq_true_eq]
        constructor
        · rintro ⟨h1, h2⟩
          exact ⟨h1, h2, by simp [coveredBy]⟩
        · rintro ⟨h1, h2, _⟩
          exact ⟨h1, h2⟩
      · simp only [sweepGaps, if_neg hcn, coveredBy, List.any_nil]
        constructor
        · intro h
          exact absurd h (by simp)
        · rintro ⟨h1, h2, _⟩
          omega
  | cons hd rest ih =>
      obtain ⟨s, e⟩ := hd
      obtain ⟨hhead, hrest⟩ := List.sorted_cons.mp hs
      obtain ⟨hse, hen⟩ := hv (s, e) (List.mem_cons_self _ _)
      have hmax : max c e ≤ n := max_le hc hen
      have hvrest : ∀ iv ∈ rest, iv.1 < iv.2 ∧ iv.2 ≤ n := fun iv hiv =>
        hv iv (List.mem_cons_of_mem _ hiv)
      have ihr := ih (max c e) hrest hvrest hmax
      have hcons_false : coveredBy ((s, e) :: rest) p = false ↔
          ¬ (s ≤ p ∧ p < e) ∧ coveredBy rest p = false := by
        constructor
        · intro h
          have h2 := (coveredBy_eq_false_iff _ p).mp h
          refine ⟨h2 (s, e) (List.mem_cons_self _ _), ?_⟩
          exact (coveredBy_eq_false_iff _ p).mpr
            (fun iv hiv => h2 iv (List.mem_cons_of_mem _ hiv))
        · rintro ⟨h1, h2⟩
          refine (coveredBy_eq_false_iff _ p).mpr ?_
          intro iv hiv
          rcases List.mem_cons.mp hiv with rfl | hiv2
          · exact h1
          · exact (coveredBy_eq_false_iff _ p).mp h2 iv hiv2
      by_cases hcs : c < s
      · rw [sweepGaps]
        rw [if_pos hcs]
        have hsplit : coveredBy ((c, s) :: sweepGaps (max c e) n rest) p = true ↔
            (c ≤ p ∧ p < s) ∨ coveredBy (sweepGaps (max c e) n rest) p = true := by
          simp [coveredBy, ivContains]
        rw [List.singleton_append, hsplit, ihr, hcons_false]
        constructor
        · rintro (⟨h1, h2⟩ | ⟨h1, h2, h3⟩)
          · refine ⟨h1, by omega, ?_, ?_⟩
            · omega
            · refine (coveredBy_eq_false_iff _ p).mpr ?_
              intro iv hiv hand
              have := hhead iv hiv
              unfold startLE at this
              omega
          · refine ⟨by omega, h2, by omega, h3⟩
        · rintro ⟨h1, h2, h3, h4⟩
          by_cases hps : p < s
          · exact Or.inl ⟨h1, hps⟩
          · refine Or.inr ⟨by omega, h2, h4⟩
      · rw [sweepGaps]
        rw [if_neg hcs]
        rw [List.nil_append, ihr, hcons_false]
        constructor
        · rintro ⟨h1, h2, h3⟩
          exact ⟨by omega, h2, by omega, h3⟩
        · rintro ⟨h1, h2, h3, h4⟩
          refine ⟨by omega, h2, h4⟩

theorem sweepGaps_cursor_le (l : List Iv) (c n : ℕ) :
    ∀ iv ∈ sweepGaps c n l, c ≤ iv.1 := by
  induction l generalizing c with
  | nil =>
      intro iv hiv
      by_cases hcn : c < n
      · rw [sweepGaps, if_pos hcn] at hiv
        rcases List.mem_singleton.mp hiv with rfl
        exact le_refl c
      · rw [sweepGaps, if_neg hcn] at hiv
        exact absurd hiv (List.not_mem_nil iv)
  | cons hd rest ih =>
      obtain ⟨s, e⟩ := hd
      intro iv hiv
      rw [sweepGaps] at hiv
      rcases List.mem_append.mp hiv with h1 | h2
      · by_cases hcs : c < s
        · rw [if_pos hcs] at h1
          rcases List.mem_singleton.mp h1 with rfl
          exact le_refl c
        · rw [if_neg hcs] at h1
          exact absurd h1 (List.not_mem_nil iv)
      · exact le_trans (le_max_left c e) (ih (max c e) iv h2)

theorem sweepGaps_pairwise (l : List Iv) (c n : ℕ)
    (hv : ∀ iv ∈ l, iv.1 < iv.2) :
    List.Pairwise ivDisjoint (sweepGaps c n l) := by
  induction l generalizing c with
  | nil =>
      by_cases hcn : c < n
      · rw [sweepGaps, if_pos hcn]
        exact List.pairwise_singleton _ _
      · rw [sweepGaps, if_neg hcn]
        exact List.Pairwise.nil
  | cons hd rest ih =>
      obtain ⟨s, e⟩ := hd
      have hse := hv (s, e) (List.mem_cons_self _ _)
      have hvrest : ∀ iv ∈ rest, iv.1 < iv.2 := fun iv hiv =>
        hv iv (List.mem_cons_of_mem _ hiv)
      rw [sweepGaps]
      by_cases hcs : c < s
      · rw [if_pos hcs, List.singleton_append]
        refine List.pairwise_cons.mpr ⟨?_, ih (max c e) hvrest⟩
        intro b hb
        have hble := sweepGaps_cursor_le rest (max c e) n b hb
        left
        show s ≤ b.1
        omega
      · rw [if_neg hcs, List.nil_append]
        exact ih (max c e) hvrest

theorem countP_contains_le_one (l : List Iv) (p : ℕ)
    (h : List.Pairwise ivDisjoint l) :
    l.countP (fun iv => ivContains iv p) ≤ 1 := by
  induction l with
  | nil => simp
  | cons a l ih =>
      obtain ⟨hdisj, htail⟩ := List.pairwise_cons.mp h
      rw [List.countP_cons]
      by_cases ha : ivContains a p = true
      · have h0 : l.countP (fun iv => ivContains iv p) = 0 := by
          refine List.countP_eq_zero.mpr ?_
          intro b hb
          have hd := hdisj b hb
          simp only [ivContains, Bool.and_eq_true, decide_eq_true_eq] at ha ⊢
          unfold ivDisjoint at hd
          omega
        rw [h0, ha]
        simp
      · rw [if_neg ha, Nat.add_zero]
        exact ih htail

/-- C4: for every chromosome length `n` and any in-bounds excluded intervals,
a position below `n` is mappable (covered by the filter's output) exactly
when no excluded interval covers it — unsorted or overlapping exclusions
being merged before complementing — and, when the exclusions are pairwise
non-overlapping, each position below `n` is covered exactly once by the
exclusions and output together. -/
theorem unmappable_filter_complement (n : ℕ) (excl : List Iv)
    (hv : ∀ iv ∈ excl, iv.1 < iv.2 ∧ iv.2 ≤ n) :
    (∀ p, coveredBy (complementIntervals n excl) p = true ↔
        p < n ∧ coveredBy excl p = false) ∧
    (List.Pairwise ivDisjoint excl → ∀ p, p < n →
      (excl ++ complementIntervals n excl).countP (fun iv => ivContains iv p) = 1) := by
  have hs : List.Sorted startLE (List.insertionSort startLE excl) :=
    List.sorted_insertionSort startLE excl
  have hv2 : ∀ iv ∈ List.insertionSort startLE excl, iv.1 < iv.2 ∧ iv.2 ≤ n :=
    fun iv hiv => hv iv ((List.mem_insertionSort startLE).mp hiv)
  have hcov_eq : ∀ p, coveredBy (List.insertionSort startLE excl) p = coveredBy excl p := by
    intro p
    rcases Bool.eq_false_or_eq_true (coveredBy excl p) with h | h
    · rw [h]
      obtain ⟨iv, hiv, hand⟩ := (coveredBy_iff _ p).mp h
      exact (coveredBy_iff _ p).mpr
        ⟨iv, (List.mem_insertionSort startLE).mpr hiv, hand⟩
    · rw [h]
      refine (coveredBy_eq_false_iff _ p).mpr ?_
      intro iv hiv
      exact (coveredBy_eq_false_iff _ p).mp h iv
        ((List.mem_insertionSort startLE).mp hiv)
  have hmain : ∀ p, coveredBy (complementIntervals n excl) p = true ↔
      p < n ∧ coveredBy excl p = false := by
    intro p
    unfold complementIntervals
    rw [sweepGaps_covered _ _ _ _ hs hv2 (Nat.zero_le n)]
    rw [hcov_eq p]
    constructor
    · rintro ⟨_, h2, h3⟩
      exact ⟨h2, h3⟩
    · rintro ⟨h2, h3⟩
      exact ⟨Nat.zero_le p, h2, h3⟩
  refine ⟨hmain, ?_⟩
  intro hdisj p hp
  rw [List.countP_append]
  have hcomp_pairwise : List.Pairwise ivDisjoint (complementIntervals n excl) := by
    unfold complementIntervals
    exact sweepGaps_pairwise _ _ _ (fun iv hiv => (hv2 iv hiv).1)
  rcases Bool.eq_false_or_eq_true (coveredBy excl p) with hcv | hcv
  · -- excluded: exactly one exclusion covers it, the complement none
    obtain ⟨iv, hiv, hand⟩ := (coveredBy_iff _ p).mp hcv
    have hpos : 0 < excl.countP (fun iv => ivContains iv p) := by
      refine List.countP_pos_iff.mpr ⟨iv, hiv, ?_⟩
      simp only [ivContains, Bool.and_eq_true, decide_eq_true_eq]
      exact hand
    have hle := countP_contains_le_one _ p hdisj
    have hcomp : coveredBy (complementIntervals n excl) p = false := by
      rcases Bool.eq_false_or_eq_true (coveredBy (complementIntervals n excl) p)
        with h | h
      · obtain ⟨_, hfalse⟩ := (hmain p).mp h
        rw [hcv] at hfalse
        exact absurd hfalse (by simp)
      · exact h
    have h0 : (complementIntervals n excl).countP (fun iv => ivContains iv p) = 0 := by
      refine List.countP_eq_zero.mpr ?_
      intro b hb
      have := (coveredBy_eq_false_iff _ p).mp hcomp b hb
      simp only [ivContains, Bool.and_eq_true, decide_eq_true_eq]
      exact this
    omega
  · -- not excluded: the complement covers it exactly once
    have h0 : excl.countP (fun iv => ivContains iv p) = 0 := by
      refine List.countP_eq_zero.mpr ?_
      intro iv hiv
      have := (coveredBy_eq_false_iff _ p).mp hcv iv hiv
      simp only [ivContains, Bool.and_eq_true, decide_eq_true_eq]
      exact this
    have hcomp : coveredBy (complementIntervals n excl) p = true :=
      (hmain p).mpr ⟨hp, hcv⟩
    obtain ⟨iv, hiv, hand⟩ := (coveredBy_iff _ p).mp hcomp
    have hpos : 0 < (complementIntervals n excl).countP (fun iv => ivContains iv p) := by
      refine List.countP_pos_iff.mpr ⟨iv, hiv, ?_⟩
      simp only [ivContains, Bool.and_eq_true, decide_eq_true_eq]
      exact hand
    have hle := countP_contains_le_one _ p hcomp_pairwise
    omega

/-- C4 witness: chromosome of length 10 with exclusions [2,4) and [6,8);
position 5 is mappable, position 2 is not, and positions 0–9 are each covered
exactly once by exclusions and complement together. -/
theorem unmappable_filter_complement_witness :
    (∀ iv ∈ [((2 : ℕ), (4 : ℕ)), (6, 8)], iv.1 < iv.2 ∧ iv.2 ≤ 10) ∧
    ((∀ p, coveredBy (complementIntervals 10 [(2, 4), (6, 8)]) p = true ↔
        p < 10 ∧ coveredBy [(2, 4), (6, 8)] p = false) ∧
      (List.Pairwise ivDisjoint [((2 : ℕ), (4 : ℕ)), (6, 8)] → ∀ p, p < 10 →
        ([((2 : ℕ), (4 : ℕ)), (6, 8)] ++
            complementIntervals 10 [(2, 4), (6, 8)]).countP
          (fun iv => ivContains iv p) = 1)) :=
  ⟨by decide, unmappable_filter_complement 10 [(2, 4), (6, 8)] (by decide)⟩

end Basenji

